import Mathlib

/-!
Shallow embedding of the rust-ipld repository core:

* `src/dag-json/src/codec.rs` — the DAG-JSON codec (`encode` / `decode`),
  embedded at the level of the JSON syntax tree produced/consumed by the
  external `serde_json` serializer and tokenizer.
* `src/src/block.rs` — the `Block` / `RawBlock` verification layer.

External collaborators (the `cid` content-identifier library, the `base64`
crate and `serde_json`'s fixed mappings between JSON syntax and serde
visitor calls) are modelled from the spec and from their documented
behaviour, since only their interfaces appear in the repository.

Machine integers are modelled as `Nat` / `Int`; bytes are `Nat` values that
the invariants bound by 256; `f64` values are opaque 64-bit patterns that
the codec passes through untouched.
-/

/-! ### Unsigned LEB128 varints (wire layer of the content identifier) -/

/-- Modelled from the spec: the external content-identifier library's
byte serialization uses unsigned LEB128 varints for its numeric fields. -/
def varint (n : Nat) : List Nat :=
  if n < 128 then [n] else (n % 128 + 128) :: varint (n / 128)
termination_by n
decreasing_by exact Nat.div_lt_self (by omega) (by omega)

/-- Modelled from the spec: varint parsing; returns the value and the
remaining bytes, or `none` on truncated input. -/
def varintDecode : List Nat → Option (Nat × List Nat)
  | [] => none
  | b :: rest =>
    if b < 128 then some (b, rest)
    else
      match varintDecode rest with
      | some (n, rest1) => some (b - 128 + 128 * n, rest1)
      | none => none

theorem varint_bytes_lt (n : Nat) : ∀ b ∈ varint n, b < 256 := by
  rw [varint]
  split
  · intro b hb
    simp only [List.mem_singleton] at hb
    omega
  · intro b hb
    rcases List.mem_cons.mp hb with h1 | h2
    · omega
    · exact varint_bytes_lt (n / 128) b h2
termination_by n
decreasing_by exact Nat.div_lt_self (by omega) (by omega)

theorem varintDecode_varint (n : Nat) (rest : List Nat) :
    varintDecode (varint n ++ rest) = some (n, rest) := by
  rw [varint]
  split
  · simp [varintDecode, *]
  · have ih := varintDecode_varint (n / 128) rest
    simp only [List.cons_append, varintDecode, List.append_eq, ih]
    have h1 : ¬ (n % 128 + 128 < 128) := by omega
    have h2 : n % 128 + 128 - 128 + 128 * (n / 128) = n := by omega
    simp only [h1, if_false, h2]
termination_by n
decreasing_by exact Nat.div_lt_self (by omega) (by omega)

/-! ### Base64 (model of the external `base64` crate, standard alphabet,
padded encoding, decode tolerant of a missing final pad but checking that
the discarded trailing bits of the last symbol are zero) -/

/-- The standard base64 alphabet. -/
def b64Alphabet : List Char :=
  "ABCDEFGHIJKLMNOPQRSTUVWXYZabcdefghijklmnopqrstuvwxyz0123456789+/".data

/-- Modelled from the spec: character for a six-bit group. -/
def b64Char (n : Nat) : Char := b64Alphabet.getD n 'A'

def b64IndexAux : List Char → Nat → Char → Option Nat
  | [], _, _ => none
  | a :: rest, i, c => if a = c then some i else b64IndexAux rest (i + 1) c

/-- Modelled from the spec: six-bit value of an alphabet character. -/
def b64Index (c : Char) : Option Nat := b64IndexAux b64Alphabet 0 c

/-- Errors of the external `base64` crate's decoder, as observed through the
repository's error messages (`Invalid last symbol …`, etc.). -/
inductive B64Error where
  | invalidByte (c : Char)
  | invalidLength
  | invalidLastSymbol (c : Char)
deriving DecidableEq

/-- Modelled from the spec: base64 encoding of a byte sequence, three bytes
to four characters, padded with `=`. -/
def b64EncodeChars : List Nat → List Char
  | a :: b :: c :: rest =>
    b64Char (a / 4) :: b64Char (a % 4 * 16 + b / 16) ::
      b64Char (b % 16 * 4 + c / 64) :: b64Char (c % 64) :: b64EncodeChars rest
  | [a, b] => [b64Char (a / 4), b64Char (a % 4 * 16 + b / 16), b64Char (b % 16 * 4), '=']
  | [a] => [b64Char (a / 4), b64Char (a % 4 * 16), '=', '=']
  | [] => []

def base64Encode (bs : List Nat) : String := String.mk (b64EncodeChars bs)

/-- Six-bit value of one character, failing on a non-alphabet byte. -/
def sextetOf (c : Char) : Except B64Error Nat :=
  match b64Index c with
  | some n => Except.ok n
  | none => Except.error (B64Error.invalidByte c)

/-- Modelled from the spec: decoding of the final (length ≤ 4) block,
handling `=` padding and requiring the unused low bits of the final symbol
to be zero, as the `base64` crate does. -/
def b64DecodeLast : List Char → Except B64Error (List Nat)
  | [] => Except.ok []
  | [a, b, c, d] =>
    if d = '=' then
      if c = '=' then
        match sextetOf a, sextetOf b with
        | Except.ok x, Except.ok y =>
          if y % 16 = 0 then Except.ok [x * 4 + y / 16]
          else Except.error (B64Error.invalidLastSymbol b)
        | Except.error e, _ => Except.error e
        | _, Except.error e => Except.error e
      else
        match sextetOf a, sextetOf b, sextetOf c with
        | Except.ok x, Except.ok y, Except.ok z =>
          if z % 4 = 0 then Except.ok [x * 4 + y / 16, y % 16 * 16 + z / 4]
          else Except.error (B64Error.invalidLastSymbol c)
        | Except.error e, _, _ => Except.error e
        | _, Except.error e, _ => Except.error e
        | _, _, Except.error e => Except.error e
    else
      match sextetOf a, sextetOf b, sextetOf c, sextetOf d with
      | Except.ok x, Except.ok y, Except.ok z, Except.ok w =>
        Except.ok [x * 4 + y / 16, y % 16 * 16 + z / 4, z % 4 * 64 + w]
      | Except.error e, _, _, _ => Except.error e
      | _, Except.error e, _, _ => Except.error e
      | _, _, Except.error e, _ => Except.error e
      | _, _, _, Except.error e => Except.error e
  | [a, b, c] =>
    match sextetOf a, sextetOf b, sextetOf c with
    | Except.ok x, Except.ok y, Except.ok z =>
      if z % 4 = 0 then Except.ok [x * 4 + y / 16, y % 16 * 16 + z / 4]
      else Except.error (B64Error.invalidLastSymbol c)
    | Except.error e, _, _ => Except.error e
    | _, Except.error e, _ => Except.error e
    | _, _, Except.error e => Except.error e
  | [a, b] =>
    match sextetOf a, sextetOf b with
    | Except.ok x, Except.ok y =>
      if y % 16 = 0 then Except.ok [x * 4 + y / 16]
      else Except.error (B64Error.invalidLastSymbol b)
    | Except.error e, _ => Except.error e
    | _, Except.error e => Except.error e
  | _ => Except.error B64Error.invalidLength

/-- Modelled from the spec: base64 decoding, processing four-character
blocks; any block that is not the final one must hold four alphabet
characters. -/
def b64DecodeChars : List Char → Except B64Error (List Nat)
  | c0 :: c1 :: c2 :: c3 :: c4 :: cs =>
    match sextetOf c0, sextetOf c1, sextetOf c2, sextetOf c3 with
    | Except.ok x, Except.ok y, Except.ok z, Except.ok w =>
      match b64DecodeChars (c4 :: cs) with
      | Except.ok tail =>
        Except.ok ((x * 4 + y / 16) :: (y % 16 * 16 + z / 4) :: (z % 4 * 64 + w) :: tail)
      | Except.error e => Except.error e
    | Except.error e, _, _, _ => Except.error e
    | _, Except.error e, _, _ => Except.error e
    | _, _, Except.error e, _ => Except.error e
    | _, _, _, Except.error e => Except.error e
  | block => b64DecodeLast block

def base64Decode (s : String) : Except B64Error (List Nat) :=
  b64DecodeChars s.data

theorem b64Index_b64Char : ∀ n < 64, b64Index (b64Char n) = some n := by decide

theorem b64Char_ne_pad : ∀ n < 64, b64Char n ≠ '=' := by decide

theorem sextetOf_b64Char {n : Nat} (h : n < 64) : sextetOf (b64Char n) = Except.ok n := by
  simp [sextetOf, b64Index_b64Char n h]

theorem b64EncodeChars_cons (bs : List Nat) (hne : bs ≠ []) :
    ∃ d ds, b64EncodeChars bs = d :: ds := by
  match bs with
  | [] => exact absurd rfl hne
  | [a] => exact ⟨_, _, rfl⟩
  | [a, b] => exact ⟨_, _, rfl⟩
  | a :: b :: c :: rest => rw [b64EncodeChars]; exact ⟨_, _, rfl⟩

theorem b64_roundtrip : ∀ bs : List Nat, (∀ x ∈ bs, x < 256) →
    b64DecodeChars (b64EncodeChars bs) = Except.ok bs
  | [], _ => rfl
  | [a], h => by
    have ha : a < 256 := h a (by simp)
    show b64DecodeLast [b64Char (a / 4), b64Char (a % 4 * 16), '=', '='] = Except.ok [a]
    rw [b64DecodeLast, if_pos rfl, if_pos rfl,
        sextetOf_b64Char (show a / 4 < 64 by omega),
        sextetOf_b64Char (show a % 4 * 16 < 64 by omega)]
    have h16 : a % 4 * 16 % 16 = 0 := by omega
    simp [h16]
    omega
  | [a, b], h => by
    have ha : a < 256 := h a (by simp)
    have hb : b < 256 := h b (by simp)
    show b64DecodeLast
        [b64Char (a / 4), b64Char (a % 4 * 16 + b / 16), b64Char (b % 16 * 4), '='] =
      Except.ok [a, b]
    rw [b64DecodeLast, if_pos rfl, if_neg (b64Char_ne_pad (b % 16 * 4) (by omega)),
        sextetOf_b64Char (show a / 4 < 64 by omega),
        sextetOf_b64Char (show a % 4 * 16 + b / 16 < 64 by omega),
        sextetOf_b64Char (show b % 16 * 4 < 64 by omega)]
    have h4 : b % 16 * 4 % 4 = 0 := by omega
    simp [h4]
    omega
  | a :: b :: c :: rest, h => by
    have ha : a < 256 := h a (by simp)
    have hb : b < 256 := h b (by simp)
    have hc : c < 256 := h c (by simp)
    have hrest : ∀ x ∈ rest, x < 256 := fun x hx => h x (by simp [hx])
    have ih := b64_roundtrip rest hrest
    rw [b64EncodeChars]
    cases hr : rest with
    | nil =>
      show b64DecodeLast
          [b64Char (a / 4), b64Char (a % 4 * 16 + b / 16),
            b64Char (b % 16 * 4 + c / 64), b64Char (c % 64)] =
        Except.ok [a, b, c]
      rw [b64DecodeLast, if_neg (b64Char_ne_pad (c % 64) (by omega)),
          sextetOf_b64Char (show a / 4 < 64 by omega),
          sextetOf_b64Char (show a % 4 * 16 + b / 16 < 64 by omega),
          sextetOf_b64Char (show b % 16 * 4 + c / 64 < 64 by omega),
          sextetOf_b64Char (show c % 64 < 64 by omega)]
      simp
      omega
    | cons r rs =>
      rw [hr] at ih
      obtain ⟨d, ds, hd⟩ := b64EncodeChars_cons (r :: rs) (by simp)
      rw [hd]
      simp only [b64DecodeChars]
      rw [sextetOf_b64Char (show a / 4 < 64 by omega),
          sextetOf_b64Char (show a % 4 * 16 + b / 16 < 64 by omega),
          sextetOf_b64Char (show b % 16 * 4 + c / 64 < 64 by omega),
          sextetOf_b64Char (show c % 64 < 64 by omega),
          ← hd, ih]
      simp
      omega

theorem base64Decode_base64Encode (bs : List Nat) (h : ∀ x ∈ bs, x < 256) :
    base64Decode (base64Encode bs) = Except.ok bs :=
  b64_roundtrip bs h

/-! ### Content identifiers (model of the external `cid` library) -/

/-- Modelled from the spec: a multihash pairs a hash-algorithm code with a
digest; the external library stores it as bytes and exposes `code()`. -/
structure Multihash where
  code : Nat
  digest : List Nat
deriving DecidableEq

/-- Modelled from the spec: a content identifier holds a version, a codec
code and a multihash; equality is field-wise. -/
structure Cid where
  version : Nat
  codec : Nat
  hash : Multihash
deriving DecidableEq

/-- Modelled from the spec: `Cid::new_v1`. -/
def Cid.new_v1 (codec : Nat) (hash : Multihash) : Cid := ⟨1, codec, hash⟩

/-- Modelled from the spec: canonical byte serialization of a multihash,
`varint(code) ++ varint(len) ++ digest`. -/
def Multihash.toBytes (m : Multihash) : List Nat :=
  varint m.code ++ varint m.digest.length ++ m.digest

/-- Modelled from the spec: canonical byte serialization of a content
identifier, `varint(version) ++ varint(codec) ++ multihash`. -/
def Cid.toBytes (c : Cid) : List Nat :=
  varint c.version ++ varint c.codec ++ c.hash.toBytes

/-- Modelled from the spec: the typed error of the external
content-identifier parser. -/
inductive CidError where
  | truncated
  | digestLengthMismatch
deriving DecidableEq

/-- Modelled from the spec: `Cid::try_from` on raw bytes, the external
constructor that fails on malformed input. -/
def cidFromBytes (bs : List Nat) : Except CidError Cid :=
  match varintDecode bs with
  | none => Except.error CidError.truncated
  | some (version, r1) =>
    match varintDecode r1 with
    | none => Except.error CidError.truncated
    | some (codec, r2) =>
      match varintDecode r2 with
      | none => Except.error CidError.truncated
      | some (code, r3) =>
        match varintDecode r3 with
        | none => Except.error CidError.truncated
        | some (len, digest) =>
          if digest.length = len then Except.ok ⟨version, codec, ⟨code, digest⟩⟩
          else Except.error CidError.digestLengthMismatch

theorem cidFromBytes_toBytes (c : Cid) : cidFromBytes c.toBytes = Except.ok c := by
  unfold cidFromBytes Cid.toBytes Multihash.toBytes
  simp only [List.append_assoc, varintDecode_varint]
  simp

theorem cid_toBytes_lt (c : Cid) (h : ∀ b ∈ c.hash.digest, b < 256) :
    ∀ b ∈ c.toBytes, b < 256 := by
  intro b hb
  unfold Cid.toBytes Multihash.toBytes at hb
  simp only [List.append_assoc] at hb
  simp only [List.mem_append] at hb
  rcases hb with h1 | h2 | h3 | h4 | h5
  · exact varint_bytes_lt _ b h1
  · exact varint_bytes_lt _ b h2
  · exact varint_bytes_lt _ b h3
  · exact varint_bytes_lt _ b h4
  · exact h b h5

/-! ### The IPLD data model and the JSON syntax tree

`F64` models Rust's `f64` as an opaque 64-bit pattern: the codec in
`src/dag-json/src/codec.rs` passes floats through `serialize_f64` /
`visit_f64` without inspecting them. -/

/-- An opaque 64-bit float pattern. -/
structure F64 where
  bits : Nat
deriving DecidableEq

/-- The IPLD value model (`libipld_base::ipld::Ipld`): Null, Bool,
Integer (i128), Float (f64), String, Bytes, List, Map (BTreeMap entries,
kept as a key-sorted entry list), Link.  -/
inductive Ipld where
  | null : Ipld
  | bool (b : Bool) : Ipld
  | integer (i : Int) : Ipld
  | float (f : F64) : Ipld
  | string (s : String) : Ipld
  | bytes (b : List Nat) : Ipld
  | list (xs : List Ipld) : Ipld
  | map (kvs : List (String × Ipld)) : Ipld
  | link (c : Cid) : Ipld

/-- JSON syntax tree as produced and consumed by `serde_json`: an object is
the source-ordered entry sequence (duplicate keys possible in parsed text);
a number token is either integer-form (`int`) or fractional/exponent-form
(`float`). -/
inductive Json where
  | null : Json
  | bool (b : Bool) : Json
  | int (n : Int) : Json
  | float (f : F64) : Json
  | str (s : String) : Json
  | arr (xs : List Json) : Json
  | obj (kvs : List (String × Json)) : Json

/-- The link sentinel key (`LINK_KEY` in `codec.rs`). -/
def LINK_KEY : String := "/"

/-! ### BTreeMap model

`Ipld::Map` holds a `BTreeMap<String, Ipld>`; `BTreeMap::from_iter` is a
left-to-right insertion into a key-sorted structure, the later value
winning on a duplicate key. -/

/-- Lexicographic (codepoint, equivalently UTF-8 byte) comparison on
character lists: the order `Ord for String` gives Rust's `BTreeMap`. -/
def charsLt : List Char → List Char → Bool
  | [], [] => false
  | [], _ :: _ => true
  | _ :: _, [] => false
  | a :: as, b :: bs =>
    if a.toNat < b.toNat then true
    else if b.toNat < a.toNat then false
    else charsLt as bs

/-- The `BTreeMap<String, _>` key order. -/
def keyLt (a b : String) : Bool := charsLt a.data b.data

/-- One `BTreeMap` insertion into a key-sorted entry list. -/
def btreeInsert (k : String) (v : Ipld) : List (String × Ipld) → List (String × Ipld)
  | [] => [(k, v)]
  | (k1, v1) :: rest =>
    if keyLt k k1 then (k, v) :: (k1, v1) :: rest
    else if k == k1 then (k, v) :: rest
    else (k1, v1) :: btreeInsert k v rest

/-- `BTreeMap::from_iter`: left-to-right insertion starting from the empty
map. -/
def btreeFromList (l : List (String × Ipld)) : List (String × Ipld) :=
  l.foldl (fun m p => btreeInsert p.1 p.2 m) []

/-! ### The DAG-JSON codec -/

/-- `InvalidLink` in `codec.rs`: the two custom decode errors, each carrying
the offending string and the underlying cause; `decode` surfaces them as
its (serde-custom) error. -/
inductive InvalidLink where
  | invalidEncoding (s : String) (e : B64Error)
  | invalidCid (s : String) (e : CidError)
deriving DecidableEq

mutual

/-- `serialize` in `codec.rs`, viewed through `serde_json`'s serializer:
Null → JSON null, Bool → bool, Integer → integer number token
(`serialize_i128`), Float → float token (`serialize_f64`), String → string,
Bytes → `serialize_bytes`, which `serde_json` renders as a JSON array of
the byte values, List → array, Map → object in stored (sorted) entry
order, Link → the single-entry object `{"/": base64(cid.to_bytes())}`. -/
def encode : Ipld → Json
  | Ipld.null => Json.null
  | Ipld.bool b => Json.bool b
  | Ipld.integer i => Json.int i
  | Ipld.float f => Json.float f
  | Ipld.string s => Json.str s
  | Ipld.bytes bs => Json.arr (bs.map fun b => Json.int (Int.ofNat b))
  | Ipld.list xs => Json.arr (encodeList xs)
  | Ipld.map kvs => Json.obj (encodeEntries kvs)
  | Ipld.link c => Json.obj [(LINK_KEY, Json.str (base64Encode c.toBytes))]

def encodeList : List Ipld → List Json
  | [] => []
  | x :: xs => encode x :: encodeList xs

def encodeEntries : List (String × Ipld) → List (String × Json)
  | [] => []
  | (k, v) :: rest => (k, encode v) :: encodeEntries rest

end

/-- The number-token dispatch of `serde_json`'s `deserialize_any` into the
visitor: a non-negative integer token arrives at `visit_u64`, a negative
one at `visit_i64` / `visit_i128`; all of them build `Ipld::Integer`. -/
def visit_u64 (v : Nat) : Except InvalidLink Ipld := Except.ok (Ipld.integer v)

def visit_i64 (v : Int) : Except InvalidLink Ipld := Except.ok (Ipld.integer v)

def visit_i128 (v : Int) : Except InvalidLink Ipld := Except.ok (Ipld.integer v)

def visit_f64 (f : F64) : Except InvalidLink Ipld := Except.ok (Ipld.float f)

/-- The link path of `JSONVisitor::visit_map`: base64-decode the string,
then parse the bytes as a Cid; each failure aborts the whole decode with
the corresponding `InvalidLink` error. -/
def decodeLink (s : String) : Except InvalidLink Ipld :=
  match base64Decode s with
  | Except.error e => Except.error (InvalidLink.invalidEncoding s e)
  | Except.ok raw =>
    match cidFromBytes raw with
    | Except.error e => Except.error (InvalidLink.invalidCid s e)
    | Except.ok cid => Except.ok (Ipld.link cid)

/-- The tail of `JSONVisitor::visit_map`, applied to the already-decoded
entry list: if the first entry holds a `String` value, its key is `"/"`
and it is the only entry, the object is treated as a link encoding;
otherwise the entries become an `Ipld::Map` via `BTreeMap::from_iter`. -/
def visit_map (values : List (String × Ipld)) : Except InvalidLink Ipld :=
  match values with
  | (k, Ipld.string s) :: rest =>
    if k = LINK_KEY ∧ rest.isEmpty then decodeLink s
    else Except.ok (Ipld.map (btreeFromList values))
  | _ => Except.ok (Ipld.map (btreeFromList values))

mutual

/-- `decode` in `codec.rs`, viewed from the parsed JSON syntax tree:
`deserialize_any` dispatches every token to `JSONVisitor`. -/
def decodeJson : Json → Except InvalidLink Ipld
  | Json.null => Except.ok Ipld.null
  | Json.bool b => Except.ok (Ipld.bool b)
  | Json.int n =>
    if 0 ≤ n then visit_u64 n.toNat
    else if -(2 ^ 63) ≤ n then visit_i64 n
    else visit_i128 n
  | Json.float f => visit_f64 f
  | Json.str s => Except.ok (Ipld.string s)
  | Json.arr xs =>
    match decodeList xs with
    | Except.ok ys => Except.ok (Ipld.list ys)
    | Except.error e => Except.error e
  | Json.obj kvs =>
    match decodeEntries kvs with
    | Except.ok values => visit_map values
    | Except.error e => Except.error e

def decodeList : List Json → Except InvalidLink (List Ipld)
  | [] => Except.ok []
  | x :: xs =>
    match decodeJson x with
    | Except.error e => Except.error e
    | Except.ok y =>
      match decodeList xs with
      | Except.error e => Except.error e
      | Except.ok ys => Except.ok (y :: ys)

def decodeEntries : List (String × Json) → Except InvalidLink (List (String × Ipld))
  | [] => Except.ok []
  | (k, v) :: rest =>
    match decodeJson v with
    | Except.error e => Except.error e
    | Except.ok iv =>
      match decodeEntries rest with
      | Except.error e => Except.error e
      | Except.ok ivs => Except.ok ((k, iv) :: ivs)

end

/-! ### Order theory of the key comparison -/

theorem charsLt_irrefl : ∀ l : List Char, charsLt l l = false
  | [] => rfl
  | a :: as => by
    rw [charsLt]
    simp only [Nat.lt_irrefl, if_false]
    exact charsLt_irrefl as

theorem charsLt_trans : ∀ {a b c : List Char},
    charsLt a b = true → charsLt b c = true → charsLt a c = true
  | [], [], _ :: _, _, _ => rfl
  | [], _ :: _, _ :: _, _, _ => rfl
  | _ :: _, _ :: _, [], _, hbc => by rw [charsLt] at hbc; exact absurd hbc (by simp)
  | [], [], [], hab, _ => by rw [charsLt] at hab; exact absurd hab (by simp)
  | [], _ :: _, [], _, hbc => by rw [charsLt] at hbc; exact absurd hbc (by simp)
  | _ :: _, [], _, hab, _ => by rw [charsLt] at hab; exact absurd hab (by simp)
  | x :: xs, y :: ys, z :: zs, hab, hbc => by
    rw [charsLt] at hab hbc ⊢
    by_cases h1 : x.toNat < y.toNat
    · by_cases h2 : y.toNat < z.toNat
      · rw [if_pos (by omega)]
      · rw [if_neg h2] at hbc
        by_cases h3 : z.toNat < y.toNat
        · rw [if_pos h3] at hbc; exact absurd hbc (by simp)
        · rw [if_pos (by omega)]
    · rw [if_neg h1] at hab
      by_cases h4 : y.toNat < x.toNat
      · rw [if_pos h4] at hab; exact absurd hab (by simp)
      · rw [if_neg h4] at hab
        by_cases h2 : y.toNat < z.toNat
        · rw [if_pos (by omega)]
        · rw [if_neg h2] at hbc
          by_cases h3 : z.toNat < y.toNat
          · rw [if_pos h3] at hbc; exact absurd hbc (by simp)
          · rw [if_neg h3] at hbc
            rw [if_neg (by omega), if_neg (by omega)]
            exact charsLt_trans hab hbc

theorem charsLt_eq_of_not : ∀ {a b : List Char},
    charsLt a b = false → charsLt b a = false → a = b
  | [], [], _, _ => rfl
  | [], _ :: _, hab, _ => by rw [charsLt] at hab; exact absurd hab (by simp)
  | _ :: _, [], _, hba => by rw [charsLt] at hba; exact absurd hba (by simp)
  | x :: xs, y :: ys, hab, hba => by
    rw [charsLt] at hab hba
    by_cases h1 : x.toNat < y.toNat
    · rw [if_pos h1] at hab; exact absurd hab (by simp)
    · by_cases h2 : y.toNat < x.toNat
      · rw [if_pos h2] at hba; exact absurd hba (by simp)
      · rw [if_neg h1, if_neg h2] at hab
        rw [if_neg h2, if_neg h1] at hba
        have h5 : x.toNat = y.toNat := by omega
        have hxy : x = y := Char.ext (UInt32.ext h5)
        have htail : xs = ys := charsLt_eq_of_not hab hba
        rw [hxy, htail]

theorem keyLt_irrefl (a : String) : keyLt a a = false := charsLt_irrefl a.data

theorem keyLt_trans {a b c : String} (h1 : keyLt a b = true) (h2 : keyLt b c = true) :
    keyLt a c = true := charsLt_trans h1 h2

theorem keyLt_eq_of_not {a b : String} (h1 : keyLt a b = false) (h2 : keyLt b a = false) :
    a = b := String.ext (charsLt_eq_of_not h1 h2)

theorem keyLt_asymm {a b : String} (h : keyLt a b = true) : keyLt b a = false := by
  by_contra hc
  have h2 : keyLt b a = true := by
    cases hh : keyLt b a
    · exact absurd hh hc
    · rfl
  have := keyLt_trans h h2
  rw [keyLt_irrefl] at this
  exact absurd this (by simp)

theorem keyLt_ne {a b : String} (h : keyLt a b = true) : a ≠ b := by
  intro he
  rw [he, keyLt_irrefl] at h
  exact absurd h (by simp)

theorem keyLt_of_not_of_ne {a b : String} (h1 : keyLt a b = false) (h2 : a ≠ b) :
    keyLt b a = true := by
  cases hh : keyLt b a
  · exact absurd (keyLt_eq_of_not h1 hh) h2
  · rfl

/-! ### BTreeMap lemmas -/

/-- The entry order of the map: strictly increasing keys. -/
def ltKey (p q : String × Ipld) : Prop := keyLt p.1 q.1 = true

theorem bool_false_of_not_true {b : Bool} (h : ¬ b = true) : b = false := by
  cases b
  · rfl
  · exact absurd rfl h

theorem keyLt_cases (a b : String) :
    a = b ∨ (keyLt a b = true ∧ keyLt b a = false) ∨
      (keyLt b a = true ∧ keyLt a b = false) := by
  cases h1 : keyLt a b
  · cases h2 : keyLt b a
    · exact Or.inl (keyLt_eq_of_not h1 h2)
    · exact Or.inr (Or.inr ⟨rfl, rfl⟩)
  · exact Or.inr (Or.inl ⟨rfl, keyLt_asymm h1⟩)

theorem mem_btreeInsert {k : String} {v : Ipld} :
    ∀ {m : List (String × Ipld)} {p : String × Ipld},
      p ∈ btreeInsert k v m → p = (k, v) ∨ p ∈ m := by
  intro m
  induction m with
  | nil =>
    intro p h
    rw [btreeInsert] at h
    exact Or.inl (by simpa using h)
  | cons q rest ih =>
    obtain ⟨k1, v1⟩ := q
    intro p h
    rw [btreeInsert] at h
    split at h
    · rcases List.mem_cons.mp h with h1 | h2
      · exact Or.inl h1
      · exact Or.inr h2
    · split at h
      · rcases List.mem_cons.mp h with h1 | h2
        · exact Or.inl h1
        · exact Or.inr (List.mem_cons.mpr (Or.inr h2))
      · rcases List.mem_cons.mp h with h1 | h2
        · exact Or.inr (List.mem_cons.mpr (Or.inl h1))
        · rcases ih h2 with h3 | h4
          · exact Or.inl h3
          · exact Or.inr (List.mem_cons.mpr (Or.inr h4))

theorem btreeInsert_pairwise {k : String} {v : Ipld} :
    ∀ {m : List (String × Ipld)}, m.Pairwise ltKey →
      (btreeInsert k v m).Pairwise ltKey := by
  intro m
  induction m with
  | nil => intro _; simp [btreeInsert, ltKey]
  | cons q rest ih =>
    obtain ⟨k1, v1⟩ := q
    intro hm
    rw [List.pairwise_cons] at hm
    obtain ⟨hq, hrest⟩ := hm
    rw [btreeInsert]
    split
    · rename_i hlt
      rw [List.pairwise_cons]
      refine ⟨?_, List.pairwise_cons.mpr ⟨hq, hrest⟩⟩
      intro p hp
      rcases List.mem_cons.mp hp with rfl | hp2
      · exact hlt
      · exact keyLt_trans hlt (hq p hp2)
    · split
      · rename_i hnlt heq
        have hkk : k = k1 := eq_of_beq heq
        rw [List.pairwise_cons]
        refine ⟨?_, hrest⟩
        intro p hp
        have := hq p hp
        unfold ltKey at this ⊢
        rw [hkk]
        exact this
      · rename_i hnlt hneq
        have hnlt2 : keyLt k k1 = false := bool_false_of_not_true hnlt
        have hne : k ≠ k1 := by
          intro he
          exact hneq (by rw [he]; exact beq_self_eq_true k1)
        have hk1k : keyLt k1 k = true := keyLt_of_not_of_ne hnlt2 hne
        rw [List.pairwise_cons]
        refine ⟨?_, ih hrest⟩
        intro p hp
        rcases mem_btreeInsert hp with rfl | hp2
        · exact hk1k
        · exact hq p hp2

theorem btreeInsert_append {k : String} {v : Ipld} :
    ∀ {m : List (String × Ipld)}, (∀ p ∈ m, keyLt p.1 k = true) →
      btreeInsert k v m = m ++ [(k, v)] := by
  intro m
  induction m with
  | nil => intro _; rfl
  | cons q rest ih =>
    obtain ⟨k1, v1⟩ := q
    intro hm
    have h1 : keyLt k1 k = true := hm (k1, v1) (List.mem_cons_self _ _)
    have h2 : keyLt k k1 = false := keyLt_asymm h1
    have h3 : (k == k1) = false := by
      rw [beq_eq_false_iff_ne]
      exact fun he => absurd he.symm (keyLt_ne h1)
    rw [btreeInsert, h2, h3]
    simp only [Bool.false_eq_true, if_false]
    rw [ih (fun p hp => hm p (List.mem_cons.mpr (Or.inr hp)))]
    simp

theorem foldl_btreeInsert_sorted :
    ∀ (l m : List (String × Ipld)),
      (∀ p ∈ m, ∀ q ∈ l, keyLt p.1 q.1 = true) → l.Pairwise ltKey →
      l.foldl (fun acc p => btreeInsert p.1 p.2 acc) m = m ++ l := by
  intro l
  induction l with
  | nil => intro m _ _; simp
  | cons a l ih =>
    intro m hml hl
    rw [List.pairwise_cons] at hl
    rw [List.foldl_cons]
    rw [btreeInsert_append (fun p hp => hml p hp a (List.mem_cons_self _ _))]
    have hml2 : ∀ p ∈ m ++ [a], ∀ q ∈ l, keyLt p.1 q.1 = true := by
      intro p hp q hq
      rcases List.mem_append.mp hp with h1 | h2
      · exact hml p h1 q (List.mem_cons.mpr (Or.inr hq))
      · have : p = a := by simpa using h2
        rw [this]
        exact hl.1 q hq
    rw [ih (m ++ [a]) hml2 hl.2]
    simp

theorem btreeFromList_sorted_id {l : List (String × Ipld)} (hl : l.Pairwise ltKey) :
    btreeFromList l = l := by
  unfold btreeFromList
  rw [foldl_btreeInsert_sorted l [] (by simp) hl]
  simp

theorem foldl_btreeInsert_pairwise :
    ∀ (l m : List (String × Ipld)), m.Pairwise ltKey →
      (l.foldl (fun acc p => btreeInsert p.1 p.2 acc) m).Pairwise ltKey := by
  intro l
  induction l with
  | nil => intro m hm; simpa using hm
  | cons a l ih =>
    intro m hm
    rw [List.foldl_cons]
    exact ih _ (btreeInsert_pairwise hm)

theorem btreeFromList_pairwise (l : List (String × Ipld)) :
    (btreeFromList l).Pairwise ltKey :=
  foldl_btreeInsert_pairwise l [] (by simp)

theorem btreeInsert_comm {k1 k2 : String} {v1 v2 : Ipld} (hne : k1 ≠ k2) :
    ∀ m : List (String × Ipld),
      btreeInsert k2 v2 (btreeInsert k1 v1 m) = btreeInsert k1 v1 (btreeInsert k2 v2 m) := by
  have hb12 : (k1 == k2) = false := beq_eq_false_iff_ne.mpr hne
  have hb21 : (k2 == k1) = false := beq_eq_false_iff_ne.mpr (Ne.symm hne)
  intro m
  induction m with
  | nil =>
    rcases keyLt_cases k1 k2 with he | ⟨h12, h21⟩ | ⟨h21, h12⟩
    · exact absurd he hne
    · simp [btreeInsert, h12, h21, hb12, hb21]
    · simp [btreeInsert, h12, h21, hb12, hb21]
  | cons q rest ih =>
    obtain ⟨k0, v0⟩ := q
    rcases keyLt_cases k1 k0 with he1 | ⟨ha1, ha2⟩ | ⟨ha1, ha2⟩
    · subst he1
      rcases keyLt_cases k2 k1 with he2 | ⟨hc1, hc2⟩ | ⟨hc1, hc2⟩
      · exact absurd he2.symm hne
      · simp [btreeInsert, hc1, hc2, hb12, hb21, keyLt_irrefl]
      · simp [btreeInsert, hc1, hc2, hb12, hb21, keyLt_irrefl]
    · rcases keyLt_cases k2 k0 with he2 | ⟨hc1, hc2⟩ | ⟨hc1, hc2⟩
      · subst he2
        have h21 : keyLt k2 k1 = false := keyLt_asymm ha1
        simp [btreeInsert, ha1, ha2, h21, hb12, hb21, keyLt_irrefl]
      · rcases keyLt_cases k1 k2 with he3 | ⟨hd1, hd2⟩ | ⟨hd1, hd2⟩
        · exact absurd he3 hne
        · simp [btreeInsert, ha1, ha2, hc1, hc2, hd1, hd2, hb12, hb21]
        · simp [btreeInsert, ha1, ha2, hc1, hc2, hd1, hd2, hb12, hb21]
      · have hbk20 : (k2 == k0) = false :=
          beq_eq_false_iff_ne.mpr fun he => absurd he.symm (keyLt_ne hc1)
        have h21 : keyLt k2 k1 = false := keyLt_asymm (keyLt_trans ha1 hc1)
        simp [btreeInsert, ha1, ha2, hc1, hc2, hbk20, h21, hb12, hb21]
    · have hbk10 : (k1 == k0) = false :=
        beq_eq_false_iff_ne.mpr fun he => absurd he.symm (keyLt_ne ha1)
      rcases keyLt_cases k2 k0 with he2 | ⟨hc1, hc2⟩ | ⟨hc1, hc2⟩
      · subst he2
        simp [btreeInsert, ha1, ha2, hbk10, hb12, hb21, keyLt_irrefl]
      · have h12 : keyLt k1 k2 = false := keyLt_asymm (keyLt_trans hc1 ha1)
        simp [btreeInsert, ha1, ha2, hc1, hc2, hbk10, h12, hb12, hb21]
      · have hbk20 : (k2 == k0) = false :=
          beq_eq_false_iff_ne.mpr fun he => absurd he.symm (keyLt_ne hc1)
        simp [btreeInsert, ha1, ha2, hc1, hc2, hbk10, hbk20, hb12, hb21, ih]

theorem btreeFromList_perm {l1 l2 : List (String × Ipld)} (hp : l1.Perm l2)
    (hn : (l1.map Prod.fst).Nodup) : btreeFromList l1 = btreeFromList l2 := by
  unfold btreeFromList
  apply hp.foldl_eq'
  intro x hx y hy z
  by_cases hxy : x = y
  · rw [hxy]
  · have hkey : x.1 ≠ y.1 := by
      intro he
      exact hxy (List.inj_on_of_nodup_map hn hx hy he)
    exact (btreeInsert_comm (Ne.symm hkey) z).symm

/-- Map lookup on the entry list (first match; entry lists built by
`btreeFromList` hold each key at most once). -/
def lookupKey (k : String) : List (String × Ipld) → Option Ipld
  | [] => none
  | (k1, v1) :: rest => if k == k1 then some v1 else lookupKey k rest

theorem lookupKey_btreeInsert (k k1 : String) (v1 : Ipld) :
    ∀ m, lookupKey k (btreeInsert k1 v1 m) =
      if k == k1 then some v1 else lookupKey k m := by
  intro m
  induction m with
  | nil => simp [btreeInsert, lookupKey]
  | cons q rest ih =>
    obtain ⟨k0, v0⟩ := q
    rw [btreeInsert]
    split
    · by_cases hk : (k == k1) = true
      · simp [lookupKey, hk]
      · have hk2 : (k == k1) = false := bool_false_of_not_true hk
        simp [lookupKey, hk2]
    · split
      · rename_i hnlt heq
        have hkk : k1 = k0 := eq_of_beq heq
        subst hkk
        by_cases hk : (k == k1) = true
        · simp [lookupKey, hk]
        · have hk2 : (k == k1) = false := bool_false_of_not_true hk
          simp [lookupKey, hk2]
      · rename_i hnlt hneq
        have hneqb : (k1 == k0) = false := bool_false_of_not_true hneq
        have hne : k1 ≠ k0 := ne_of_beq_false hneqb
        by_cases hk0 : (k == k0) = true
        · have hkk0 : k = k0 := eq_of_beq hk0
          have hk1 : (k == k1) = false :=
            beq_eq_false_iff_ne.mpr (by rw [hkk0]; exact Ne.symm hne)
          simp [lookupKey, hk0, hk1, ih]
        · have hk0f : (k == k0) = false := bool_false_of_not_true hk0
          simp [lookupKey, hk0f, ih]

theorem lookupKey_append (k : String) :
    ∀ xs ys : List (String × Ipld), lookupKey k (xs ++ ys) =
      match lookupKey k xs with
      | some v => some v
      | none => lookupKey k ys := by
  intro xs
  induction xs with
  | nil => intro ys; simp [lookupKey]
  | cons q rest ih =>
    intro ys
    obtain ⟨k1, v1⟩ := q
    by_cases hk : (k == k1) = true
    · simp [lookupKey, hk]
    · have hk2 : (k == k1) = false := bool_false_of_not_true hk
      simp [lookupKey, hk2, ih]

theorem lookupKey_foldl (k : String) :
    ∀ (l m : List (String × Ipld)),
      lookupKey k (l.foldl (fun acc p => btreeInsert p.1 p.2 acc) m) =
      match lookupKey k l.reverse with
      | some v => some v
      | none => lookupKey k m := by
  intro l
  induction l with
  | nil => intro m; simp [lookupKey]
  | cons a l ih =>
    intro m
    rw [List.foldl_cons, ih (btreeInsert a.1 a.2 m), List.reverse_cons,
        lookupKey_append, lookupKey_btreeInsert]
    cases h : lookupKey k l.reverse
    · by_cases hk : (k == a.1) = true
      · simp [lookupKey, hk]
      · have hk2 : (k == a.1) = false := bool_false_of_not_true hk
        simp [lookupKey, hk2]
    · simp

theorem lookupKey_btreeFromList (k : String) (l : List (String × Ipld)) :
    lookupKey k (btreeFromList l) = lookupKey k l.reverse := by
  unfold btreeFromList
  rw [lookupKey_foldl]
  cases h : lookupKey k l.reverse
  · simp [lookupKey]
  · simp

/-! ### Characterization of the decoder -/

theorem decodeJson_int (n : Int) : decodeJson (Json.int n) = Except.ok (Ipld.integer n) := by
  rw [decodeJson]
  split
  · rename_i h
    simp [visit_u64, Int.toNat_of_nonneg h]
  · split
    · simp [visit_i64]
    · simp [visit_i128]

/-- The link shape test on the raw object entries: exactly one entry, key
`"/"`, string value. -/
def isLinkShape : List (String × Json) → Bool
  | [(k, Json.str _)] => k == LINK_KEY
  | _ => false

/-- The link shape test on the decoded entries, as `visit_map` performs it. -/
def isLinkValues : List (String × Ipld) → Bool
  | [(k, Ipld.string _)] => k == LINK_KEY
  | _ => false

theorem visit_map_ne_string (values : List (String × Ipld)) (s : String) :
    visit_map values ≠ Except.ok (Ipld.string s) := by
  unfold visit_map
  split
  · split
    · unfold decodeLink
      split
      · simp
      · split
        · simp
        · simp
    · simp
  · simp

theorem visit_map_of_not_link {values : List (String × Ipld)}
    (h : isLinkValues values = false) :
    visit_map values = Except.ok (Ipld.map (btreeFromList values)) := by
  unfold visit_map
  split
  · rename_i k s rest
    split
    · rename_i hcond
      obtain ⟨hk, hrest⟩ := hcond
      have hrest2 : rest = [] := List.isEmpty_iff.mp hrest
      subst hrest2
      rw [isLinkValues] at h
      rw [hk] at h
      simp [LINK_KEY] at h
    · rfl
  · rfl

theorem decodeJson_string_inv : ∀ {j : Json} {s : String},
    decodeJson j = Except.ok (Ipld.string s) → j = Json.str s := by
  intro j s h
  cases j with
  | null => simp [decodeJson] at h
  | bool b => simp [decodeJson] at h
  | int n => rw [decodeJson_int] at h; simp at h
  | float f => simp [decodeJson, visit_f64] at h
  | str t => simp [decodeJson] at h; rw [h]
  | arr xs =>
    rw [decodeJson] at h
    cases hd : decodeList xs <;> rw [hd] at h <;> simp at h
  | obj kvs =>
    rw [decodeJson] at h
    cases hd : decodeEntries kvs with
    | error e => rw [hd] at h; simp at h
    | ok values => rw [hd] at h; exact absurd h (visit_map_ne_string _ _)

theorem decodeEntries_ok_nil : ∀ {entries : List (String × Json)},
    decodeEntries entries = Except.ok [] → entries = [] := by
  intro entries h
  cases entries with
  | nil => rfl
  | cons q rest =>
    obtain ⟨k0, j0⟩ := q
    rw [decodeEntries] at h
    cases hj : decodeJson j0 <;> rw [hj] at h
    · simp at h
    · cases hr : decodeEntries rest <;> rw [hr] at h <;> simp at h

theorem decodeEntries_singleton_string {entries : List (String × Json)} {k : String}
    {s : String} (h : decodeEntries entries = Except.ok [(k, Ipld.string s)]) :
    entries = [(k, Json.str s)] := by
  cases entries with
  | nil => simp [decodeEntries] at h
  | cons q rest =>
    obtain ⟨k0, j0⟩ := q
    rw [decodeEntries] at h
    cases hj : decodeJson j0 <;> rw [hj] at h
    · simp at h
    · cases hr : decodeEntries rest <;> rw [hr] at h
      · simp at h
      · rename_i iv ivs
        simp only [Except.ok.injEq, List.cons.injEq, Prod.mk.injEq] at h
        obtain ⟨⟨hk, hv⟩, hrest⟩ := h
        have hrest2 : rest = [] := decodeEntries_ok_nil (by rw [hr, hrest])
        subst hrest2
        have hj0 : j0 = Json.str s := decodeJson_string_inv (by rw [hj, hv])
        rw [hk, hj0]

theorem decodeEntries_preserves_shape {entries : List (String × Json)}
    {values : List (String × Ipld)} (hsh : isLinkShape entries = false)
    (h : decodeEntries entries = Except.ok values) : isLinkValues values = false := by
  cases hv : isLinkValues values
  · rfl
  · exfalso
    unfold isLinkValues at hv
    split at hv
    · rename_i k s
      have he := decodeEntries_singleton_string h
      have hk : k = LINK_KEY := eq_of_beq hv
      rw [he] at hsh
      simp [isLinkShape, hk] at hsh
    · simp at hv

/-! ### Well-formedness for the round-trip -/

/-- A map whose entry list is exactly the link-encoding shape: one entry,
key `"/"`, `String` value. Such a map collides with the link convention on
the wire. -/
def isSentinelMap : List (String × Ipld) → Bool
  | [(k, Ipld.string _)] => k == LINK_KEY
  | _ => false

/-- Adjacent-key strict sortedness, the `BTreeMap` entry-list invariant. -/
def keysSortedB : List (String × Ipld) → Bool
  | [] => true
  | [_] => true
  | p :: q :: rest => keyLt p.1 q.1 && keysSortedB (q :: rest)

theorem keysSortedB_pairwise : ∀ l : List (String × Ipld),
    keysSortedB l = true → l.Pairwise ltKey
  | [], _ => List.Pairwise.nil
  | [p], _ => by simp
  | p :: q :: rest, h => by
    rw [keysSortedB, Bool.and_eq_true] at h
    obtain ⟨h1, h2⟩ := h
    have hqr := keysSortedB_pairwise (q :: rest) h2
    rw [List.pairwise_cons]
    refine ⟨?_, hqr⟩
    intro x hx
    rcases List.mem_cons.mp hx with rfl | hx2
    · exact h1
    · exact keyLt_trans h1 ((List.pairwise_cons.mp hqr).1 x hx2)

mutual

/-- Well-formedness of a value for the round-trip: no `Bytes` anywhere, all
map entry lists key-sorted (the `BTreeMap` representation invariant), link
digests made of bytes, and no map anywhere that has exactly one entry whose
key is the sentinel `"/"` with a `String` value. -/
def wfNoBytes : Ipld → Bool
  | Ipld.null => true
  | Ipld.bool _ => true
  | Ipld.integer _ => true
  | Ipld.float _ => true
  | Ipld.string _ => true
  | Ipld.bytes _ => false
  | Ipld.list xs => wfNoBytesList xs
  | Ipld.map kvs => keysSortedB kvs && !isSentinelMap kvs && wfNoBytesEntries kvs
  | Ipld.link c => c.hash.digest.all fun b => decide (b < 256)

def wfNoBytesList : List Ipld → Bool
  | [] => true
  | x :: xs => wfNoBytes x && wfNoBytesList xs

def wfNoBytesEntries : List (String × Ipld) → Bool
  | [] => true
  | (_, v) :: rest => wfNoBytes v && wfNoBytesEntries rest

end

/-! ### Round-trip -/

theorem decodeLink_encode_link (c : Cid) (h : ∀ b ∈ c.hash.digest, b < 256) :
    decodeLink (base64Encode c.toBytes) = Except.ok (Ipld.link c) := by
  unfold decodeLink
  rw [base64Decode_base64Encode c.toBytes (cid_toBytes_lt c h)]
  simp [cidFromBytes_toBytes]

mutual

theorem decode_encode : ∀ v : Ipld, wfNoBytes v = true →
    decodeJson (encode v) = Except.ok v
  | Ipld.null, _ => rfl
  | Ipld.bool b, _ => rfl
  | Ipld.integer i, _ => by rw [encode, decodeJson_int]
  | Ipld.float f, _ => rfl
  | Ipld.string s, _ => rfl
  | Ipld.bytes bs, h => by rw [wfNoBytes] at h; exact absurd h (by simp)
  | Ipld.list xs, h => by
    rw [wfNoBytes] at h
    rw [encode, decodeJson, decode_encodeList xs h]
  | Ipld.map kvs, h => by
    rw [wfNoBytes, Bool.and_eq_true, Bool.and_eq_true] at h
    obtain ⟨⟨hsort, hsent⟩, hwf⟩ := h
    rw [encode, decodeJson, decode_encodeEntries kvs hwf]
    show visit_map kvs = Except.ok (Ipld.map kvs)
    have hlv : isLinkValues kvs = false := by
      cases hv : isLinkValues kvs
      · rfl
      · exfalso
        unfold isLinkValues at hv
        split at hv
        · rename_i k s
          rw [isSentinelMap, hv] at hsent
          simp at hsent
        · simp at hv
    rw [visit_map_of_not_link hlv,
        btreeFromList_sorted_id (keysSortedB_pairwise kvs hsort)]
  | Ipld.link c, h => by
    rw [wfNoBytes] at h
    have hd : ∀ b ∈ c.hash.digest, b < 256 := by
      intro b hb
      have := List.all_eq_true.mp h b hb
      exact of_decide_eq_true this
    rw [encode, decodeJson, decodeEntries, decodeJson, decodeEntries]
    show visit_map [(LINK_KEY, Ipld.string (base64Encode c.toBytes))] = Except.ok (Ipld.link c)
    rw [visit_map]
    rw [if_pos ⟨rfl, rfl⟩]
    exact decodeLink_encode_link c hd

theorem decode_encodeList : ∀ xs : List Ipld, wfNoBytesList xs = true →
    decodeList (encodeList xs) = Except.ok xs
  | [], _ => rfl
  | x :: xs, h => by
    rw [wfNoBytesList, Bool.and_eq_true] at h
    rw [encodeList, decodeList, decode_encode x h.1, decode_encodeList xs h.2]

theorem decode_encodeEntries : ∀ l : List (String × Ipld), wfNoBytesEntries l = true →
    decodeEntries (encodeEntries l) = Except.ok l
  | [], _ => rfl
  | (k, v) :: rest, h => by
    rw [wfNoBytesEntries, Bool.and_eq_true] at h
    rw [encodeEntries, decodeEntries, decode_encode v h.1, decode_encodeEntries rest h.2]

end

/-! ### Block / RawBlock (`src/src/block.rs`) -/

/-- `RawBlock`: one content identifier paired with owned bytes. -/
structure RawBlock where
  cid : Cid
  data : List Nat
deriving DecidableEq

/-- `Block<TCodec, THash>`: the codec and hash bindings are type-level
phantoms in the source, carrying no runtime state; a `Block` stores only
its `RawBlock`, and derived equality compares the raw parts, exactly as
the `PartialEq` derive does. -/
structure Block where
  raw : RawBlock
deriving DecidableEq

/-- `Block::cid`. -/
def Block.cid (b : Block) : Cid := b.raw.cid

/-- `Block::data`. -/
def Block.data (b : Block) : List Nat := b.raw.data

/-- `Block::to_raw`. -/
def Block.to_raw (b : Block) : RawBlock := b.raw

/-- A hash binding (`THash : Hash`): its multicodec `CODE` and its digest
function. `digest` returns a multihash carrying `CODE`, as the `multihash`
library does. -/
structure HashAlg where
  code : Nat
  digestFn : List Nat → List Nat

/-- `THash::digest`. -/
def HashAlg.digest (h : HashAlg) (d : List Nat) : Multihash :=
  ⟨h.code, h.digestFn d⟩

/-- A codec binding (`TCodec : Codec + ToBytes`): its multicodec code and
its serialization function. -/
structure CodecImpl where
  codec : Nat
  to_bytes : Ipld → List Nat

/-- The three verification failures of `TryFrom<RawBlock> for Block`; the
source reports them as `format_err!` strings ("Codec doesn't match",
"Hash code doesn't match", "Block hash does not match block data"). -/
inductive BlockError where
  | codecMismatch
  | hashMismatch
  | digestMismatch
deriving DecidableEq

/-- `From<&Ipld> for Block` (`Block::from`, construction from a value):
encode, digest, build a fresh v1 identifier — no checks. -/
def Block.from_value (C : CodecImpl) (H : HashAlg) (ipld : Ipld) : Block :=
  let data := C.to_bytes ipld
  let hash := H.digest data
  let cid := Cid.new_v1 C.codec hash
  ⟨⟨cid, data⟩⟩

/-- `TryFrom<RawBlock> for Block` (`Block::try_from`): the three checks, in
source order. -/
def Block.try_from (C : CodecImpl) (H : HashAlg) (raw : RawBlock) : Except BlockError Block :=
  if raw.cid.codec ≠ C.codec then Except.error BlockError.codecMismatch
  else if raw.cid.hash.code ≠ H.code then Except.error BlockError.hashMismatch
  else if raw.cid.hash ≠ H.digest raw.data then Except.error BlockError.digestMismatch
  else Except.ok ⟨raw⟩

/-! ### Helpers for the claims -/

theorem decodeJson_sentinel_obj (s : String) :
    decodeJson (Json.obj [(LINK_KEY, Json.str s)]) = decodeLink s := by
  rw [decodeJson, decodeEntries, decodeJson, decodeEntries]
  show visit_map [(LINK_KEY, Ipld.string s)] = decodeLink s
  rw [visit_map]
  rw [if_pos ⟨rfl, rfl⟩]

theorem decodeEntries_length : ∀ {entries : List (String × Json)}
    {values : List (String × Ipld)}, decodeEntries entries = Except.ok values →
    values.length = entries.length := by
  intro entries
  induction entries with
  | nil =>
    intro values h
    rw [decodeEntries] at h
    simp only [Except.ok.injEq] at h
    rw [← h]
    rfl
  | cons q rest ih =>
    intro values h
    obtain ⟨k0, j0⟩ := q
    rw [decodeEntries] at h
    cases hj : decodeJson j0 <;> rw [hj] at h
    · simp at h
    · cases hr : decodeEntries rest <;> rw [hr] at h
      · simp at h
      · simp only [Except.ok.injEq] at h
        rw [← h]
        simp [ih hr]

theorem isLinkValues_cons_cons (p q : String × Ipld) (rest : List (String × Ipld)) :
    isLinkValues (p :: q :: rest) = false := by
  obtain ⟨k, v⟩ := p
  cases v <;> rfl

theorem encodeEntries_keys : ∀ l : List (String × Ipld),
    (encodeEntries l).map Prod.fst = l.map Prod.fst
  | [] => rfl
  | (k, v) :: rest => by
    rw [encodeEntries, List.map_cons, List.map_cons, encodeEntries_keys rest]

theorem decodeList_int_map : ∀ b : List Nat,
    decodeList (b.map fun x => Json.int (Int.ofNat x)) =
      Except.ok (b.map fun x => Ipld.integer (Int.ofNat x))
  | [] => rfl
  | x :: xs => by
    rw [List.map_cons, decodeList, decodeJson_int, decodeList_int_map xs, List.map_cons]

theorem two_le_length_of_not_nodup_keys {entries : List (String × Json)}
    (h : ¬ (entries.map Prod.fst).Nodup) : 2 ≤ entries.length := by
  match entries with
  | [] => simp at h
  | [p] => simp at h
  | p :: q :: rest => simp

/-! ### Claims -/

/-- C1, counterexample: the claim fails as stated. The value
`Map {"/" ↦ String "hello"}` is built from the scalar variants plus Map
composition and holds no Bytes, yet its encoding is the JSON object
`{"/": "hello"}`, which the decoder treats as a link encoding; base64
decoding of `"hello"` fails (length 5), so `decode(encode(v))` is an
`InvalidEncoding` error rather than the original map. -/
theorem C1_roundtrip_counterexample :
    decodeJson (encode (Ipld.map [(LINK_KEY, Ipld.string "hello")])) =
      Except.error (InvalidLink.invalidEncoding "hello" B64Error.invalidLength) ∧
    decodeJson (encode (Ipld.map [(LINK_KEY, Ipld.string "hello")])) ≠
      Except.ok (Ipld.map [(LINK_KEY, Ipld.string "hello")]) := by
  refine ⟨rfl, ?_⟩
  intro hc
  rw [show decodeJson (encode (Ipld.map [(LINK_KEY, Ipld.string "hello")])) =
      Except.error (InvalidLink.invalidEncoding "hello" B64Error.invalidLength) from rfl] at hc
  simp at hc

/-- C1, amended: for every value built from the five scalar variants plus
List/Map/Link composition — no Bytes anywhere, map entry lists key-sorted
and link digests byte-valued (the `BTreeMap` / `Vec<u8>` representation
invariants), and additionally no map anywhere in the tree consisting of
exactly one entry whose key is the sentinel `"/"` with a String value
(such a map collides with the link encoding on the wire) —
`decode(encode(v))` succeeds and returns `v`. -/
theorem C1_roundtrip (v : Ipld) (h : wfNoBytes v = true) :
    decodeJson (encode v) = Except.ok v :=
  decode_encode v h

/-- Concrete input for the C1 witness: scalars, a list, a nested map and a
link. -/
def rtWitnessValue : Ipld :=
  Ipld.map [("a", Ipld.integer 1),
            ("b", Ipld.link ⟨1, 297, ⟨18, [3, 7]⟩⟩),
            ("c", Ipld.list [Ipld.null, Ipld.bool true, Ipld.float ⟨0⟩, Ipld.string "hi"])]

theorem C1_roundtrip_witness :
    wfNoBytes rtWitnessValue = true ∧
      decodeJson (encode rtWitnessValue) = Except.ok rtWitnessValue :=
  ⟨rfl, C1_roundtrip rtWitnessValue rfl⟩

/-- C2: `Block::try_from` performs the three checks in order — codec code,
hash-algorithm code, recomputed digest — failing with the matching error,
and succeeds (returning the block over the given raw pair) when all three
hold. -/
theorem C2_try_from_checks (C : CodecImpl) (H : HashAlg) (raw : RawBlock) :
    (raw.cid.codec ≠ C.codec →
      Block.try_from C H raw = Except.error BlockError.codecMismatch) ∧
    (raw.cid.codec = C.codec → raw.cid.hash.code ≠ H.code →
      Block.try_from C H raw = Except.error BlockError.hashMismatch) ∧
    (raw.cid.codec = C.codec → raw.cid.hash.code = H.code →
      raw.cid.hash ≠ H.digest raw.data →
      Block.try_from C H raw = Except.error BlockError.digestMismatch) ∧
    (raw.cid.codec = C.codec → raw.cid.hash.code = H.code →
      raw.cid.hash = H.digest raw.data →
      Block.try_from C H raw = Except.ok ⟨raw⟩) := by
  refine ⟨fun h1 => ?_, fun h1 h2 => ?_, fun h1 h2 h3 => ?_, fun h1 h2 h3 => ?_⟩
  · rw [Block.try_from, if_pos h1]
  · rw [Block.try_from, if_neg (by simp [h1]), if_pos h2]
  · rw [Block.try_from, if_neg (by simp [h1]), if_neg (by simp [h2]), if_pos h3]
  · rw [Block.try_from, if_neg (by simp [h1]), if_neg (by simp [h2]),
        if_neg (by simp [h3])]

/-- Bindings and raw blocks for the block-layer witnesses. -/
def codecW : CodecImpl := ⟨0, fun _ => []⟩

def hashW : HashAlg := ⟨0, fun _ => []⟩

def rawW : RawBlock := ⟨⟨1, 0, ⟨0, []⟩⟩, []⟩

def rawBadCodec : RawBlock := ⟨⟨1, 5, ⟨0, []⟩⟩, []⟩

theorem C2_try_from_checks_witness :
    Block.try_from codecW hashW rawBadCodec = Except.error BlockError.codecMismatch ∧
    Block.try_from codecW hashW rawW = Except.ok ⟨rawW⟩ :=
  ⟨(C2_try_from_checks codecW hashW rawBadCodec).1 (by decide),
   (C2_try_from_checks codecW hashW rawW).2.2.2 rfl rfl (by decide)⟩

/-- C3: a parsed JSON object decodes as a link exactly when it has one
entry, key `"/"`, string value — in that case the decode is the link path
(`decodeLink`), which yields a Link or a link error; every other object
shape decodes as the recursively decoded ordinary Map (so its shape alone
produces neither a Link nor an error). -/
theorem C3_link_shape_rule (entries : List (String × Json)) :
    (∀ k s, entries = [(k, Json.str s)] → k = LINK_KEY →
      decodeJson (Json.obj entries) = decodeLink s) ∧
    (isLinkShape entries = false →
      decodeJson (Json.obj entries) =
        (decodeEntries entries).map (fun vs => Ipld.map (btreeFromList vs)) ∧
      ∀ c, decodeJson (Json.obj entries) ≠ Except.ok (Ipld.link c)) := by
  constructor
  · intro k s he hk
    subst he
    subst hk
    exact decodeJson_sentinel_obj s
  · intro hsh
    have heq : decodeJson (Json.obj entries) =
        (decodeEntries entries).map (fun vs => Ipld.map (btreeFromList vs)) := by
      rw [decodeJson]
      cases hd : decodeEntries entries with
      | error e => simp [Except.map]
      | ok values =>
        show visit_map values =
          Except.map (fun vs => Ipld.map (btreeFromList vs)) (Except.ok values)
        rw [visit_map_of_not_link (decodeEntries_preserves_shape hsh hd)]
        simp [Except.map]
    refine ⟨heq, ?_⟩
    intro c hc
    rw [heq] at hc
    cases hd : decodeEntries entries <;> rw [hd] at hc <;> simp [Except.map] at hc

theorem C3_link_shape_rule_witness :
    decodeJson (Json.obj [(LINK_KEY, Json.str "AA==")]) = decodeLink "AA==" ∧
    decodeJson (Json.obj []) = Except.ok (Ipld.map []) :=
  ⟨(C3_link_shape_rule [(LINK_KEY, Json.str "AA==")]).1 LINK_KEY "AA==" rfl rfl,
   (((C3_link_shape_rule []).2 rfl).1).trans rfl⟩

/-- C4, counterexample: the claim fails as stated. `encode` passes Bytes to
the serializer's `serialize_bytes`, which `serde_json` renders as a JSON
array of the byte values — not as a base64 string. `Bytes [104, 105]`
encodes to `[104,105]` and decodes to `List [Integer 104, Integer 105]`,
not to `String "aGk="` (the base64 of those bytes). -/
theorem C4_bytes_counterexample :
    decodeJson (encode (Ipld.bytes [104, 105])) =
      Except.ok (Ipld.list [Ipld.integer 104, Ipld.integer 105]) ∧
    base64Encode [104, 105] = "aGk=" ∧
    decodeJson (encode (Ipld.bytes [104, 105])) ≠
      Except.ok (Ipld.string (base64Encode [104, 105])) := by
  refine ⟨rfl, rfl, ?_⟩
  intro hc
  rw [show decodeJson (encode (Ipld.bytes [104, 105])) =
      Except.ok (Ipld.list [Ipld.integer 104, Ipld.integer 105]) from rfl] at hc
  simp at hc

/-- C4, amended: encode renders a Bytes value as a JSON array of its byte
values (serde_json's representation of `serialize_bytes`), with no
wrapping object, so for every byte sequence b, `decode(encode(Bytes b))`
succeeds and equals the List of the Integer byte values. -/
theorem C4_bytes_roundtrip (b : List Nat) :
    decodeJson (encode (Ipld.bytes b)) =
      Except.ok (Ipld.list (b.map fun x => Ipld.integer (Int.ofNat x))) := by
  rw [encode, decodeJson, decodeList_int_map]

/-- C5: when an object qualifies as a link encoding, a base64 failure
aborts the decode with `InvalidEncoding` (the spec's
`InvalidLinkEncoding`) carrying the original string and the cause, and a
content-identifier parse failure aborts it with `InvalidCid` (the spec's
`InvalidLinkIdentifier`) carrying the same; neither falls back to a plain
Map. -/
theorem C5_link_error_rule (s : String) :
    (∀ e, base64Decode s = Except.error e →
      decodeJson (Json.obj [(LINK_KEY, Json.str s)]) =
        Except.error (InvalidLink.invalidEncoding s e)) ∧
    (∀ bs e, base64Decode s = Except.ok bs → cidFromBytes bs = Except.error e →
      decodeJson (Json.obj [(LINK_KEY, Json.str s)]) =
        Except.error (InvalidLink.invalidCid s e)) := by
  constructor
  · intro e he
    rw [decodeJson_sentinel_obj, decodeLink, he]
  · intro bs e hb he
    rw [decodeJson_sentinel_obj, decodeLink, hb]
    simp [he]

theorem C5_link_error_rule_witness :
    decodeJson (Json.obj [(LINK_KEY, Json.str "invalidcid")]) =
      Except.error
        (InvalidLink.invalidEncoding "invalidcid" (B64Error.invalidLastSymbol 'd')) ∧
    decodeJson (Json.obj [(LINK_KEY, Json.str "AA==")]) =
      Except.error (InvalidLink.invalidCid "AA==" CidError.truncated) :=
  ⟨(C5_link_error_rule "invalidcid").1 (B64Error.invalidLastSymbol 'd') rfl,
   (C5_link_error_rule "AA==").2 [0] CidError.truncated rfl rfl⟩

/-- C6: construction from a value is total (`Block.from_value` is a plain
function) and establishes the invariant by construction: re-verifying its
raw form under the same codec and hash bindings succeeds and returns an
equal block. -/
theorem C6_from_value_verifies (C : CodecImpl) (H : HashAlg) (v : Ipld) :
    Block.try_from C H (Block.from_value C H v).to_raw =
      Except.ok (Block.from_value C H v) := by
  simp [Block.from_value, Block.try_from, Block.to_raw, Cid.new_v1, HashAlg.digest]

/-- The keys of the JSON object a value encodes to. -/
def Json.objKeys : Json → List String
  | Json.obj kvs => kvs.map Prod.fst
  | _ => []

/-- C7: encoding a map built by insertion (`btreeFromList`) is independent
of insertion order (for duplicate-free keys), and the emitted JSON object
lists its keys in strictly increasing lexicographic order. -/
theorem C7_canonical_key_order (l1 l2 : List (String × Ipld)) (hp : l1.Perm l2)
    (hn : (l1.map Prod.fst).Nodup) :
    encode (Ipld.map (btreeFromList l1)) = encode (Ipld.map (btreeFromList l2)) ∧
    List.Chain' (fun a b => keyLt a b = true)
      (encode (Ipld.map (btreeFromList l1))).objKeys := by
  constructor
  · rw [btreeFromList_perm hp hn]
  · rw [encode]
    show List.Chain' (fun a b => keyLt a b = true)
      ((encodeEntries (btreeFromList l1)).map Prod.fst)
    rw [encodeEntries_keys]
    have hpw := btreeFromList_pairwise l1
    have hpw2 : (List.map Prod.fst (btreeFromList l1)).Pairwise
        (fun a b => keyLt a b = true) := by
      rw [List.pairwise_map]
      exact hpw
    exact hpw2.chain'

/-- Insertion orders for the C7 witness. -/
def permL1 : List (String × Ipld) := [("b", Ipld.null), ("a", Ipld.bool true)]

def permL2 : List (String × Ipld) := [("a", Ipld.bool true), ("b", Ipld.null)]

theorem C7_canonical_key_order_witness :
    encode (Ipld.map (btreeFromList permL1)) = encode (Ipld.map (btreeFromList permL2)) ∧
    List.Chain' (fun a b => keyLt a b = true)
      (encode (Ipld.map (btreeFromList permL1))).objKeys :=
  C7_canonical_key_order permL1 permL2
    (List.Perm.swap ("a", Ipld.bool true) ("b", Ipld.null) []) (by decide)

/-- C8: an integer-form number token (within the signed 128-bit range the
data model supports) decodes to `Integer`, never `Float`; a
fractional/exponent-form token decodes to `Float`, never `Integer`. -/
theorem C8_number_tokens (n : Int) (f : F64) :
    (-(2 ^ 127) ≤ n → n < 2 ^ 127 →
      decodeJson (Json.int n) = Except.ok (Ipld.integer n)) ∧
    decodeJson (Json.float f) = Except.ok (Ipld.float f) :=
  ⟨fun _ _ => decodeJson_int n, rfl⟩

theorem C8_number_tokens_witness :
    decodeJson (Json.int 5) = Except.ok (Ipld.integer 5) ∧
    decodeJson (Json.float ⟨0⟩) = Except.ok (Ipld.float ⟨0⟩) :=
  ⟨(C8_number_tokens 5 ⟨0⟩).1 (by norm_num) (by norm_num), (C8_number_tokens 5 ⟨0⟩).2⟩

/-- C9: a successful `Block::try_from` stores the input pair unchanged —
the result's identifier, bytes, and raw form equal the input's. -/
theorem C9_try_from_frame (C : CodecImpl) (H : HashAlg) (raw : RawBlock) (b : Block)
    (h : Block.try_from C H raw = Except.ok b) :
    b.cid = raw.cid ∧ b.data = raw.data ∧ b.to_raw = raw := by
  unfold Block.try_from at h
  split at h
  · simp at h
  · split at h
    · simp at h
    · split at h
      · simp at h
      · simp only [Except.ok.injEq] at h
        rw [← h]
        exact ⟨rfl, rfl, rfl⟩

theorem C9_try_from_frame_witness :
    (Block.mk rawW).cid = rawW.cid ∧ (Block.mk rawW).data = rawW.data ∧
      (Block.mk rawW).to_raw = rawW :=
  C9_try_from_frame codecW hashW rawW (Block.mk rawW) rfl

/-- C10, counterexample: the claim fails as stated. The well-formed JSON
object `{"a": {"/": "invalidcid"}, "a": 1}` has duplicate keys, yet decode
does not succeed: the first value is itself a link-shaped object whose
base64 fails, and that error aborts the whole decode. -/
theorem C10_duplicate_keys_counterexample :
    decodeJson
        (Json.obj [("a", Json.obj [(LINK_KEY, Json.str "invalidcid")]),
                   ("a", Json.int 1)]) =
      Except.error
        (InvalidLink.invalidEncoding "invalidcid" (B64Error.invalidLastSymbol 'd')) ∧
    ∀ v : Ipld,
      decodeJson
          (Json.obj [("a", Json.obj [(LINK_KEY, Json.str "invalidcid")]),
                     ("a", Json.int 1)]) ≠
        Except.ok v := by
  refine ⟨rfl, ?_⟩
  intro v hc
  rw [show decodeJson
        (Json.obj [("a", Json.obj [(LINK_KEY, Json.str "invalidcid")]),
                   ("a", Json.int 1)]) =
      Except.error
        (InvalidLink.invalidEncoding "invalidcid" (B64Error.invalidLastSymbol 'd'))
      from rfl] at hc
  simp at hc

/-- C10, amended: for every parsed JSON object with duplicate keys whose
entry values all decode successfully, decode succeeds — duplicate keys are
never an error and never a Link — and the resulting Map keeps, for each
key, the value of the key's last occurrence in the text (the map's lookup
equals lookup in the reversed decoded entry sequence). -/
theorem C10_duplicate_keys (entries : List (String × Json))
    (values : List (String × Ipld)) (hdup : ¬ (entries.map Prod.fst).Nodup)
    (h : decodeEntries entries = Except.ok values) :
    decodeJson (Json.obj entries) = Except.ok (Ipld.map (btreeFromList values)) ∧
    (∀ c, decodeJson (Json.obj entries) ≠ Except.ok (Ipld.link c)) ∧
    ∀ k, lookupKey k (btreeFromList values) = lookupKey k values.reverse := by
  have hlen : 2 ≤ entries.length := two_le_length_of_not_nodup_keys hdup
  have hvlen : 2 ≤ values.length := by rw [decodeEntries_length h]; exact hlen
  have hlv : isLinkValues values = false := by
    match values, hvlen with
    | p :: q :: rest, _ => exact isLinkValues_cons_cons p q rest
  have heq : decodeJson (Json.obj entries) =
      Except.ok (Ipld.map (btreeFromList values)) := by
    rw [decodeJson, h]
    show visit_map values = Except.ok (Ipld.map (btreeFromList values))
    exact visit_map_of_not_link hlv
  refine ⟨heq, ?_, fun k => lookupKey_btreeFromList k values⟩
  intro c hc
  rw [heq] at hc
  simp at hc

theorem C10_duplicate_keys_witness :
    decodeJson (Json.obj [(LINK_KEY, Json.str "x"), (LINK_KEY, Json.str "y")]) =
      Except.ok (Ipld.map [(LINK_KEY, Ipld.string "y")]) :=
  ((C10_duplicate_keys [(LINK_KEY, Json.str "x"), (LINK_KEY, Json.str "y")]
      [(LINK_KEY, Ipld.string "x"), (LINK_KEY, Ipld.string "y")]
      (by decide) rfl).1).trans rfl
